import Mathlib

/-!
# moize: the manual cache API of a memoized function

A shallow embedding of `src/instance.js` (`addInstanceMethods`,
`addInstanceProperties`): the methods `add`, `clear`, `get`, `has`, `keys`,
`remove`, `values`, the getters `cache` and `cacheSnapshot`, and the static
properties that moize puts on a memoized function object.  The helpers
`findKeyIndex` and `createPromiseRejecter` and the memoized function itself are
not part of that file; they are written from the specification.

The mutable object `moized` becomes an explicit state `Moized`; every method
takes the state and returns its JavaScript result together with the new
state.  JavaScript arrays become lists: `unshift` is cons, `splice (i, 1)` is
`eraseIdx i`, `length = 0` is the empty list and `slice (0)` is a copy.
The callbacks `onCacheAdd`, `onCacheChange` and `onCacheHit` are observers:
each call is recorded, in order, with the cache contents it was handed.
-/

namespace Moize

/-- A JavaScript value (`any`), restricted to the primitive values. -/
inductive JSValue where
  | undefined
  | null
  | bool (b : Bool)
  | number (n : Int)
  | string (s : String)
  deriving DecidableEq, Repr

/-- A cache key, `Array<any>`: the list of arguments of a call. -/
abbrev Key := List JSValue

/-- The `Cache` object of the memoized function: two parallel arrays. -/
structure Cache where
  keys : List Key
  values : List JSValue
  deriving DecidableEq, Repr

/-- Modelled from the spec: the type `Expiration` (declared in `./types`, which
is not among the sources), "an association between a CacheKey and a pending
timer"; the timer is represented by its delay. -/
structure Expiration where
  key : Key
  maxAge : Nat
  deriving DecidableEq, Repr

/-- One call of an observer callback, with the contents of the cache object
passed to it at the time of the call. -/
inductive Notification where
  | onCacheAdd (cache : Cache)
  | onCacheChange (cache : Cache)
  | onCacheHit (cache : Cache)
  deriving DecidableEq, Repr

/-- The options read by the instance methods (`moized.options`): the key
comparator, the optional key transformer and the configured bounds.  The
observer callbacks are represented by the notification log of the state. -/
structure Options where
  isEqual : Key → Key → Bool
  transformKey : Option (Key → Key)
  maxSize : Nat
  maxAge : Option Nat

/-- The state of a memoized function object: its cache arrays, the list of
expirations handed to `addInstanceProperties`, and the calls made so far to
the observer callbacks (oldest first). -/
structure Moized where
  cache : Cache
  expirations : List Expiration
  notifications : List Notification
  deriving DecidableEq, Repr

/-- The memoized function object right after creation: nothing cached. -/
def emptyMoized : Moized := ⟨⟨[], []⟩, [], []⟩

/-- JavaScript `~x` on an index or `-1`. Array indices are below `2 ^ 32 - 1`,
where `~x` is `-x - 1`: zero exactly at `-1`. -/
def bitNot (x : Int) : Int := -x - 1

/-- The loop of `findKeyIndex`, scanning `keys` from position `index`. -/
def findKeyIndexFrom (isEqual : Key → Key → Bool) : List Key → Key → Nat → Int
  | [], _, _ => -1
  | k :: ks, key, index =>
    if isEqual k key then (index : Int) else findKeyIndexFrom isEqual ks key (index + 1)

/-- Modelled from the spec: `findKeyIndex` (imported from `./utils`, which is
not among the sources), "`findIndex(key) -> index|-1`: first position i such
that `equal(keys[i], key)`; linear scan from front". -/
def findKeyIndex (isEqual : Key → Key → Bool) (keys : List Key) (key : Key) : Int :=
  findKeyIndexFrom isEqual keys key 0

/-- The expression `transformKey ? transformKey(key) : key`. -/
def transformedKey (o : Options) (key : Key) : Key :=
  match o.transformKey with
  | some f => f key
  | none => key

/-- The setter `array.splice(index, 1)` with a non-negative index. -/
def splice {α : Type} (array : List α) (index : Int) : List α :=
  array.eraseIdx index.toNat

/-- The method `moized.add`. -/
def add (o : Options) (s : Moized) (key : Key) (value : JSValue) : JSValue × Moized :=
  let savedKey := transformedKey o key
  if bitNot (findKeyIndex o.isEqual s.cache.keys savedKey) = 0 then
    let cache : Cache := ⟨savedKey :: s.cache.keys, value :: s.cache.values⟩
    (JSValue.undefined,
      { s with
        cache := cache
        notifications :=
          s.notifications ++ [Notification.onCacheAdd cache, Notification.onCacheChange cache] })
  else
    (JSValue.undefined, s)

/-- The method `moized.clear`. -/
def clear (s : Moized) : JSValue × Moized :=
  let cache : Cache := ⟨[], []⟩
  (JSValue.undefined,
    { s with
      cache := cache
      notifications := s.notifications ++ [Notification.onCacheChange cache] })

/-- The method `moized.has`. -/
def has (o : Options) (s : Moized) (key : Key) : Bool :=
  bitNot (findKeyIndex o.isEqual s.cache.keys (transformedKey o key)) ≠ 0

/-- The method `moized.remove`; it is declared `void` and has no `return`. -/
def remove (o : Options) (s : Moized) (key : Key) : JSValue × Moized :=
  let keyIndex := findKeyIndex o.isEqual s.cache.keys (transformedKey o key)
  if bitNot keyIndex ≠ 0 then
    let cache : Cache := ⟨splice s.cache.keys keyIndex, splice s.cache.values keyIndex⟩
    (JSValue.undefined,
      { s with
        cache := cache
        notifications := s.notifications ++ [Notification.onCacheChange cache] })
  else
    (JSValue.undefined, s)

/-- The object returned by the getter `cacheSnapshot`. -/
structure CacheSnapshot where
  keys : List Key
  size : Nat
  values : List JSValue
  deriving DecidableEq, Repr

/-- The getter `cacheSnapshot`: copies of both arrays and the number of keys. -/
def cacheSnapshot (s : Moized) : CacheSnapshot :=
  { keys := s.cache.keys, size := s.cache.keys.length, values := s.cache.values }

/-- The method `moized.keys`. -/
def keys (s : Moized) : List Key × Moized :=
  ((cacheSnapshot s).keys, s)

/-- The method `moized.values`. -/
def values (s : Moized) : List JSValue × Moized :=
  ((cacheSnapshot s).values, s)

/-- Modelled from the spec: `moveToFront(index)`, "relocates entry i to
position 0 ... without changing relative order of the rest". -/
def moveToFront {α : Type} (l : List α) (index : Nat) : List α :=
  match l[index]? with
  | some x => x :: l.eraseIdx index
  | none => l

/-- Modelled from the spec: cancelling the expiration of a key; expirations
"reference keys by value-equality", which is the comparator. -/
def cancelExpiration (o : Options) (expirations : List Expiration) (key : Key) :
    List Expiration :=
  expirations.eraseP (fun e => o.isEqual e.key key)

/-- Modelled from the spec: `insertFront(key, value)`, "prepends; if resulting
size exceeds max, remove the tail entry (both sequences) and, if present,
cancel its Expiration". -/
def insertFront (o : Options) (s : Moized) (key : Key) (value : JSValue) : Moized :=
  let keys := key :: s.cache.keys
  let values := value :: s.cache.values
  if o.maxSize < keys.length then
    { s with
      cache := ⟨keys.dropLast, values.dropLast⟩
      expirations :=
        match keys.getLast? with
        | some tail => cancelExpiration o s.expirations tail
        | none => s.expirations }
  else
    { s with cache := ⟨keys, values⟩ }

/-- Modelled from the spec: a call of the memoized function itself (it is made
by the library micro-memoize, which is not among the sources): "a call's
arguments enter the CacheEngine, which asks KeyComparator to find a matching
key in KeyStore; on hit it moves the entry to front ...; on miss it invokes the
original computation, stores the key/value pair (bounded by max size via
KeyStore eviction), arms ExpirationScheduler if a max age is set".  The lookup
key is the transformed argument list; `fn` is the original function.  The
global statistics counters and asynchronous results are left out. -/
def memoized (o : Options) (fn : Key → JSValue) (s : Moized) (args : Key) :
    JSValue × Moized :=
  let key := transformedKey o args
  let keyIndex := findKeyIndex o.isEqual s.cache.keys key
  if keyIndex ≠ -1 then
    let cache : Cache :=
      ⟨moveToFront s.cache.keys keyIndex.toNat, moveToFront s.cache.values keyIndex.toNat⟩
    (s.cache.values.getD keyIndex.toNat JSValue.undefined,
      { s with
        cache := cache
        notifications := s.notifications ++ [Notification.onCacheHit cache] })
  else
    let value := fn args
    let s1 := insertFront o s key value
    let expirations :=
      match o.maxAge with
      | some maxAge => ⟨key, maxAge⟩ :: cancelExpiration o s1.expirations key
      | none => s1.expirations
    (value,
      { s1 with
        expirations := expirations
        notifications :=
          s1.notifications ++
            [Notification.onCacheAdd s1.cache, Notification.onCacheChange s1.cache] })

/-- The method `moized.get`: on a found key it calls the memoized function
with the stored key as its argument list (`moized.apply(this, keys[keyIndex])`). -/
def get (o : Options) (fn : Key → JSValue) (s : Moized) (key : Key) : JSValue × Moized :=
  let keyIndex := findKeyIndex o.isEqual s.cache.keys (transformedKey o key)
  if bitNot keyIndex ≠ 0 then
    memoized o fn s (s.cache.keys.getD keyIndex.toNat [])
  else
    (JSValue.undefined, s)

/-- A manual mutation of the cache. -/
inductive Op where
  | add (key : Key) (value : JSValue)
  | remove (key : Key)
  | clear
  deriving DecidableEq, Repr

/-- Applying one manual mutation. -/
def step (o : Options) (s : Moized) : Op → Moized
  | Op.add key value => (add o s key value).2
  | Op.remove key => (remove o s key).2
  | Op.clear => (clear s).2

/-- Applying a sequence of manual mutations, first to last. -/
def run (o : Options) (s : Moized) (ops : List Op) : Moized :=
  ops.foldl (step o) s

/-- Calling `add` for each pair of a list, first to last. -/
def addAll (o : Options) (s : Moized) (entries : List (Key × JSValue)) : Moized :=
  entries.foldl (fun s e => (add o s e.1 e.2).2) s

/-! ## Concrete configurations used as test inputs -/

/-- The options of a plain memoized function with room for two entries: keys
are compared element by element, no key transformer, no maximum age. -/
def plainOptions : Options :=
  { isEqual := fun a b => decide (a = b), transformKey := none, maxSize := 2, maxAge := none }

/-- The key `['a']`. -/
def keyA : Key := [JSValue.string "a"]

/-- The key `['b']`. -/
def keyB : Key := [JSValue.string "b"]

/-- The key `['c']`. -/
def keyC : Key := [JSValue.string "c"]

/-- A memoized function holding the single entry `['a'] -> 1`. -/
def holdsA : Moized := ⟨⟨[keyA], [JSValue.number 1]⟩, [], []⟩

/-- Options of a memoized function whose comparator looks at the first
argument only and whose key transformer reverses the argument list. -/
def firstArgOptions : Options :=
  { isEqual := fun a b => decide (a.head? = b.head?)
    transformKey := some List.reverse
    maxSize := 2
    maxAge := none }

/-- An original function that returns `null` for every argument list. -/
def constNull : Key → JSValue := fun _ => JSValue.null

/-- A comparator is an equivalence relation on keys. -/
def IsEquivalence (isEqual : Key → Key → Bool) : Prop :=
  (∀ a, isEqual a a = true) ∧
    (∀ a b, isEqual a b = true → isEqual b a = true) ∧
    (∀ a b c, isEqual a b = true → isEqual b c = true → isEqual a c = true)

/-- No two positions of a keys list hold keys that the comparator equates, in
either order of its arguments. -/
def NoEqualKeys (isEqual : Key → Key → Bool) (ks : List Key) : Prop :=
  ks.Pairwise (fun a b => isEqual a b = false ∧ isEqual b a = false)

/-- A memoized function holding the single entry `['a'] -> undefined`. -/
def holdsUndefined : Moized := ⟨⟨[keyA], [JSValue.undefined]⟩, [], []⟩

/-- A memoized function holding the entry `['a'] -> 1` with an expiration
armed for the key `['a']`. -/
def armedA : Moized := ⟨⟨[keyA], [JSValue.number 1]⟩, [⟨keyA, 50⟩], []⟩

/-- Following the spec's words, the cache contents after one manual mutation:
`add` stores the transformed key and the value in front "only if not already
present", `remove` deletes the entry of the first equal key when there is one,
`clear` empties the cache. -/
def expectedCache (o : Options) (c : Cache) : Op → Cache
  | Op.add key value =>
    if c.keys.any (fun k => o.isEqual k (transformedKey o key)) then c
    else ⟨transformedKey o key :: c.keys, value :: c.values⟩
  | Op.remove key =>
    if c.keys.any (fun k => o.isEqual k (transformedKey o key)) then
      ⟨c.keys.eraseIdx (c.keys.findIdx (fun k => o.isEqual k (transformedKey o key))),
        c.values.eraseIdx (c.keys.findIdx (fun k => o.isEqual k (transformedKey o key)))⟩
    else c
  | Op.clear => ⟨[], []⟩

/-- Following the spec's words, the notifications of one manual mutation:
"every structural mutation (add/remove/clear ...) triggers an `onCacheChange`
notification with the current Cache snapshot"; an `add` that inserts tells
`onCacheAdd` first; an `add` of a present key and a `remove` of an absent key
are not mutations. -/
def expectedNotificationsOf (o : Options) (c : Cache) (op : Op) : List Notification :=
  match op with
  | Op.add key _ =>
    if c.keys.any (fun k => o.isEqual k (transformedKey o key)) then []
    else
      [Notification.onCacheAdd (expectedCache o c op),
        Notification.onCacheChange (expectedCache o c op)]
  | Op.remove key =>
    if c.keys.any (fun k => o.isEqual k (transformedKey o key)) then
      [Notification.onCacheChange (expectedCache o c op)]
    else []
  | Op.clear => [Notification.onCacheChange (expectedCache o c op)]

/-- Following the spec's words, "structural-change notifications fire in the
same order mutations are applied": the notifications of a sequence of
mutations are those of each mutation in turn. -/
def expectedNotifications (o : Options) : Cache → List Op → List Notification
  | _, [] => []
  | c, op :: ops =>
    expectedNotificationsOf o c op ++ expectedNotifications o (expectedCache o c op) ops

/-- JavaScript `ToString` on the primitive values. -/
def toJSString : JSValue → String
  | JSValue.undefined => "undefined"
  | JSValue.null => "null"
  | JSValue.bool true => "true"
  | JSValue.bool false => "false"
  | JSValue.number n => toString n
  | JSValue.string s => s

/-- JavaScript `array.sort()` without a comparator: the values other than
`undefined` in ascending order of their string forms, compared character by
character, then every `undefined`. -/
def sort (array : List JSValue) : List JSValue :=
  (array.filter (fun v => v ≠ JSValue.undefined)).insertionSort
      (fun a b => ¬ (toJSString b).data < (toJSString a).data) ++
    array.filter (fun v => v = JSValue.undefined)

/-- The key `['foo']`. -/
def keyFoo : Key := [JSValue.string "foo"]

/-- The key `['bar']`. -/
def keyBar : Key := [JSValue.string "bar"]

/-- The getter `cache`, `Object.assign({}, cache, {get size() {...}})`: the two
arrays of the cache together with the number of keys at the time of the
access. -/
def cache (s : Moized) : CacheSnapshot :=
  { keys := s.cache.keys, size := s.cache.keys.length, values := s.cache.values }

/-- Following the spec's words, "`keys[i]` corresponds to `values[i]` for all
i; the two sequences are always mutated together": one manual mutation on the
cache seen as a single list of key/value entries. -/
def entryStep (o : Options) (entries : List (Key × JSValue)) : Op → List (Key × JSValue)
  | Op.add key value =>
    if entries.any (fun e => o.isEqual e.1 (transformedKey o key)) then entries
    else (transformedKey o key, value) :: entries
  | Op.remove key =>
    entries.eraseIdx (entries.findIdx (fun e => o.isEqual e.1 (transformedKey o key)))
  | Op.clear => []

/-- A sequence of manual mutations on the list of key/value entries. -/
def runEntries (o : Options) (entries : List (Key × JSValue)) (ops : List Op) :
    List (Key × JSValue) :=
  ops.foldl (entryStep o) entries

/-- Modelled from the spec: the outcome of an asynchronous computation once it
has settled, either fulfilled with a value or rejected with an error. -/
inductive Settled where
  | resolved (value : JSValue)
  | rejected (error : JSValue)
  deriving DecidableEq, Repr

/-- Modelled from the spec: `createPromiseRejecter` (part of `./utils`, which is
not among the sources; `test/utils.js` calls it): "On failure, removes the entry
for that key entirely and re-raises the same failure to the caller unchanged".
The handler made for `key` calls `remove(key)` on the cache and returns
`promiseLibrary.reject(exception)`. -/
def createPromiseRejecter (o : Options) (key : Key) (s : Moized) (exception : JSValue) :
    Settled × Moized :=
  (Settled.rejected exception, (remove o s key).2)

/-- JavaScript truthiness of a primitive value. -/
def truthy : JSValue → Bool
  | JSValue.undefined => false
  | JSValue.null => false
  | JSValue.bool b => b
  | JSValue.number n => n ≠ 0
  | JSValue.string s => s ≠ ""

/-- JavaScript `a || b`. -/
def jsOr (a b : JSValue) : JSValue :=
  if truthy a then a else b

/-- A function object with the static properties that `addInstanceProperties`
reads or writes: `ref` is the identity of the object, `name` the function name,
and each other field is `none` while the object has no such property. -/
structure FunctionObject where
  ref : Nat
  name : String
  displayName : Option JSValue
  contextTypes : Option JSValue
  defaultProps : Option JSValue
  propTypes : Option JSValue
  deriving DecidableEq, Repr

/-- Reading a property of an object: `undefined` when the object has none. -/
def readProperty (property : Option JSValue) : JSValue :=
  property.getD JSValue.undefined

/-- The options passed to the moizer, as far as `addInstanceProperties` reads
them. -/
structure MoizeOptions where
  isReact : JSValue
  deriving DecidableEq, Repr

/-- The configuration object of an instance. -/
structure Configuration where
  expirations : List Expiration
  options : MoizeOptions
  originalFunction : FunctionObject
  deriving DecidableEq, Repr

/-- The function `addInstanceMethods`, on the static properties of the memoized
function: it adds the methods `add`, `clear`, `get`, `getStats`, `has`, `keys`,
`remove`, `values` and leaves every static property as it is. -/
def addInstanceMethods (moized : FunctionObject) : FunctionObject :=
  moized

/-- The function `addInstanceProperties`, on the static properties of the
memoized function: the getters it defines are the functions `cache` and
`cacheSnapshot` of the state; when `isReact` is truthy it assigns
`displayName`, `contextTypes`, `defaultProps` and `propTypes`. -/
def addInstanceProperties (moized : FunctionObject) (configuration : Configuration) :
    FunctionObject :=
  let originalFunction := configuration.originalFunction
  if truthy configuration.options.isReact then
    { moized with
      displayName :=
        some (JSValue.string
          ("Moized(" ++
            toJSString
              (jsOr (jsOr (readProperty originalFunction.displayName)
                (JSValue.string originalFunction.name)) (JSValue.string "Component")) ++
            ")"))
      contextTypes := some (readProperty originalFunction.contextTypes)
      defaultProps := some (readProperty originalFunction.defaultProps)
      propTypes := some (readProperty originalFunction.propTypes) }
  else
    moized

/-- The function `augmentMoizeInstance`. -/
def augmentMoizeInstance (moized : FunctionObject) (configuration : Configuration) :
    FunctionObject :=
  addInstanceProperties (addInstanceMethods moized) configuration

/-- A memoized function object without static properties. -/
def memoizedFn : FunctionObject := ⟨1, "memoizedFn", none, none, none, none⟩

/-- An original function with all three component fields. -/
def originalFnAll : FunctionObject :=
  ⟨2, "originalFn", none, some (JSValue.string "foo"), some (JSValue.string "bar"),
    some (JSValue.string "baz")⟩

/-- An original function with the field `defaultProps` only. -/
def originalFnOne : FunctionObject :=
  ⟨3, "originalFn", none, none, some (JSValue.string "foo"), none⟩

/-- The first argument of a key when it is a number, else `0`. -/
def firstNumber : Key → Int
  | JSValue.number n :: _ => n
  | _ => 0

/-- Options of a memoized function whose comparator equates two keys when
their first arguments are numbers at most one apart; it is reflexive and
symmetric but not transitive. -/
def nearOptions : Options :=
  { isEqual := fun a b => decide ((firstNumber a - firstNumber b).natAbs ≤ 1)
    transformKey := none
    maxSize := 2
    maxAge := none }

/-- The key `[1]`. -/
def keyOne : Key := [JSValue.number 1]

/-- The key `[2]`. -/
def keyTwo : Key := [JSValue.number 2]

/-- A memoized function holding the single entry `[0] -> 'zero'`. -/
def holdsZero : Moized := ⟨⟨[[JSValue.number 0]], [JSValue.string "zero"]⟩, [], []⟩

/-- A memoized function holding `['b'] -> 2` in front of `['a'] -> 1`. -/
def holdsBA : Moized := ⟨⟨[keyB, keyA], [JSValue.number 2, JSValue.number 1]⟩, [], []⟩

/-- A comparator of single arguments: two numbers are equal when they are at
most one apart, any other two values when they are the same value. -/
def nearArgument : JSValue → JSValue → Bool
  | JSValue.number a, JSValue.number b => decide ((a - b).natAbs ≤ 1)
  | a, b => decide (a = b)

/-- The comparator of keys made from a comparator of single arguments: the
same number of arguments, equal argument by argument. -/
def argumentwise (argEqual : JSValue → JSValue → Bool) : Key → Key → Bool
  | [], [] => true
  | a :: as, b :: bs => argEqual a b && argumentwise argEqual as bs
  | _, _ => false

/-- A key transformer that doubles a first argument that is a number and drops
the other arguments, `args => [args[0] * 2]`. -/
def doubleFirst : Key → Key
  | JSValue.number n :: _ => [JSValue.number (n * 2)]
  | key => key

/-- Options of a memoized function whose comparator equates numbers at most
one apart, argument by argument, and whose key transformer doubles the first
argument. -/
def doubleOptions : Options :=
  { isEqual := argumentwise nearArgument
    transformKey := some doubleFirst
    maxSize := 2
    maxAge := none }

/-- Options of a memoized function with the plain comparator and the key
transformer that doubles the first argument. -/
def plainDoubleOptions : Options :=
  { isEqual := fun a b => decide (a = b)
    transformKey := some doubleFirst
    maxSize := 2
    maxAge := none }

/-- Options of a memoized function whose comparator equates numbers at most
one apart, argument by argument, and whose key transformer keeps the first
argument only, `args => args.slice(0, 1)`. -/
def nearFirstOptions : Options :=
  { isEqual := argumentwise nearArgument
    transformKey := some (List.take 1)
    maxSize := 2
    maxAge := none }

/-- The key `[1, 5]`. -/
def keyOneFive : Key := [JSValue.number 1, JSValue.number 5]

/-- The key `[2, 9]`. -/
def keyTwoNine : Key := [JSValue.number 2, JSValue.number 9]

/-- A memoized function holding `[0] -> 'p0'` in front of `[2] -> 'p2'`. -/
def holdsZeroTwo : Moized :=
  ⟨⟨[[JSValue.number 0], [JSValue.number 2]], [JSValue.string "p0", JSValue.string "p2"]⟩,
    [], []⟩

/-! ## The key scan -/

theorem bitNot_eq_zero_iff (x : Int) : bitNot x = 0 ↔ x = -1 := by
  unfold bitNot; omega

theorem findKeyIndexFrom_eq (isEqual : Key → Key → Bool) (ks : List Key) (key : Key)
    (i : Nat) :
    findKeyIndexFrom isEqual ks key i =
      if ks.any (fun k => isEqual k key) then
        ((i + ks.findIdx (fun k => isEqual k key) : Nat) : Int)
      else -1 := by
  induction ks generalizing i with
  | nil => simp [findKeyIndexFrom]
  | cons k ks ih =>
    by_cases h : isEqual k key = true
    · simp [findKeyIndexFrom, h, List.findIdx_cons]
    · have h' : isEqual k key = false := by simpa using h
      simp only [findKeyIndexFrom, h', List.any_cons, Bool.false_or, List.findIdx_cons, ih]
      by_cases ha : (ks.any fun k => isEqual k key) = true
      · simp [ha]; omega
      · simp [ha]

theorem findKeyIndex_eq (isEqual : Key → Key → Bool) (ks : List Key) (key : Key) :
    findKeyIndex isEqual ks key =
      if ks.any (fun k => isEqual k key) then
        ((ks.findIdx (fun k => isEqual k key) : Nat) : Int)
      else -1 := by
  simp [findKeyIndex, findKeyIndexFrom_eq]

theorem findKeyIndex_eq_neg_one_iff (isEqual : Key → Key → Bool) (ks : List Key) (key : Key) :
    findKeyIndex isEqual ks key = -1 ↔ ∀ k ∈ ks, isEqual k key = false := by
  rw [findKeyIndex_eq]
  by_cases ha : (ks.any fun k => isEqual k key) = true
  · have hb := ha
    simp only [List.any_eq_true] at hb
    obtain ⟨k, hk, hkk⟩ := hb
    simp only [ha, if_true]
    constructor
    · intro h; omega
    · intro h; rw [h k hk] at hkk; cases hkk
  · have hb := ha
    simp only [List.any_eq_true, not_exists, not_and, Bool.not_eq_true] at hb
    simp [ha]
    exact hb

theorem findKeyIndex_cons_of_equal (isEqual : Key → Key → Bool) (k : Key) (ks : List Key)
    (key : Key) (h : isEqual k key = true) : findKeyIndex isEqual (k :: ks) key = 0 := by
  simp [findKeyIndex, findKeyIndexFrom, h]

theorem findKeyIndex_ne_neg_one_iff (isEqual : Key → Key → Bool) (ks : List Key) (key : Key) :
    findKeyIndex isEqual ks key ≠ -1 ↔ ∃ k ∈ ks, isEqual k key = true := by
  rw [Ne, findKeyIndex_eq_neg_one_iff]
  constructor
  · intro h
    by_contra hc
    apply h
    intro k hk
    by_contra hkk
    exact hc ⟨k, hk, by simpa using hkk⟩
  · rintro ⟨k, hk, hkk⟩ h
    rw [h k hk] at hkk
    cases hkk

/-! ## The methods on a present and on an absent key -/

theorem add_of_absent (o : Options) (s : Moized) (key : Key) (value : JSValue)
    (h : ∀ k ∈ s.cache.keys, o.isEqual k (transformedKey o key) = false) :
    add o s key value =
      (JSValue.undefined,
        { s with
          cache := ⟨transformedKey o key :: s.cache.keys, value :: s.cache.values⟩
          notifications :=
            s.notifications ++
              [Notification.onCacheAdd
                  ⟨transformedKey o key :: s.cache.keys, value :: s.cache.values⟩,
                Notification.onCacheChange
                  ⟨transformedKey o key :: s.cache.keys, value :: s.cache.values⟩] }) := by
  have h1 := (findKeyIndex_eq_neg_one_iff o.isEqual s.cache.keys (transformedKey o key)).2 h
  simp [add, h1, bitNot]

theorem add_of_present (o : Options) (s : Moized) (key : Key) (value : JSValue)
    (h : ∃ k ∈ s.cache.keys, o.isEqual k (transformedKey o key) = true) :
    add o s key value = (JSValue.undefined, s) := by
  have h1 := (findKeyIndex_ne_neg_one_iff o.isEqual s.cache.keys (transformedKey o key)).2 h
  have h2 : ¬ bitNot (findKeyIndex o.isEqual s.cache.keys (transformedKey o key)) = 0 := by
    rw [bitNot_eq_zero_iff]; exact h1
  simp [add, h2]

theorem addAll_of_new (o : Options) (entries : List (Key × JSValue)) (s : Moized)
    (hnew : ∀ e ∈ entries, ∀ k ∈ s.cache.keys, o.isEqual k (transformedKey o e.1) = false)
    (hdistinct : entries.Pairwise
      (fun a b => o.isEqual (transformedKey o a.1) (transformedKey o b.1) = false)) :
    (addAll o s entries).cache =
      ⟨(entries.map (fun e => transformedKey o e.1)).reverse ++ s.cache.keys,
        (entries.map (fun e => e.2)).reverse ++ s.cache.values⟩ := by
  induction entries generalizing s with
  | nil => simp [addAll]
  | cons e es ih =>
    have he := hnew e (List.mem_cons_self _ _)
    rw [List.pairwise_cons] at hdistinct
    have hstep : addAll o s (e :: es) = addAll o (add o s e.1 e.2).2 es := by
      simp [addAll]
    rw [hstep, add_of_absent o s e.1 e.2 he]
    rw [ih]
    · simp
    · intro e' he' k hk
      simp only [List.mem_cons] at hk
      rcases hk with hk | hk
      · rw [hk]; exact hdistinct.1 e' he'
      · exact hnew e' (List.mem_cons_of_mem _ he') k hk
    · exact hdistinct.2

/-! ## C1: add on a present key -/

/-- C1: if the cache already holds a key equal, under the comparator, to the
transformed key of `add(key, value)`, then `add` changes nothing: the keys
list, the values list and the expirations are the same, and no call of
`onCacheAdd` or `onCacheChange` is recorded. -/
theorem add_idempotent (o : Options) (s : Moized) (key : Key) (value : JSValue)
    (h : ∃ k ∈ s.cache.keys, o.isEqual k (transformedKey o key) = true) :
    (add o s key value).2 = s ∧
      (add o s key value).2.cache.keys = s.cache.keys ∧
      (add o s key value).2.cache.values = s.cache.values ∧
      (add o s key value).2.notifications = s.notifications := by
  rw [add_of_present o s key value h]
  exact ⟨rfl, rfl, rfl, rfl⟩

theorem add_idempotent_witness :
    (∃ k ∈ holdsA.cache.keys, plainOptions.isEqual k (transformedKey plainOptions keyA) = true) ∧
      (add plainOptions holdsA keyA (JSValue.number 7)).2 = holdsA ∧
      (add plainOptions holdsA keyA (JSValue.number 7)).2.cache.keys = holdsA.cache.keys ∧
      (add plainOptions holdsA keyA (JSValue.number 7)).2.cache.values = holdsA.cache.values ∧
      (add plainOptions holdsA keyA (JSValue.number 7)).2.notifications = holdsA.notifications :=
  ⟨⟨keyA, by decide, by decide⟩,
    add_idempotent plainOptions holdsA keyA (JSValue.number 7) ⟨keyA, by decide, by decide⟩⟩

/-! ## C2: add and the maximum size -/

/-- C2, as the claim states it, fails: with `maxSize = 2`, adding the keys
`['a']`, `['b']`, `['c']` in order to the empty cache leaves three entries,
`['c']`, `['b']`, `['a']`. -/
theorem add_exceeds_maxSize :
    plainOptions.maxSize = 2 ∧
      (addAll plainOptions emptyMoized
          [(keyA, JSValue.number 1), (keyB, JSValue.number 2), (keyC, JSValue.number 3)]).cache.keys
        = [keyC, keyB, keyA] ∧
      ¬ (addAll plainOptions emptyMoized
          [(keyA, JSValue.number 1), (keyB, JSValue.number 2),
            (keyC, JSValue.number 3)]).cache.keys.length ≤ plainOptions.maxSize := by
  decide

/-- C2, amended: `add` does not read `maxSize` and evicts nothing. For every
options record (so for every `maxSize`) and every sequence of insertions of
new keys (no stored key equals a new one, no earlier new key equals a later
one), the keys list afterwards is the new keys, last inserted first, followed
by all the old keys, and its length is the old length plus the number of
insertions. -/
theorem add_never_evicts (o : Options) (s : Moized) (entries : List (Key × JSValue))
    (hnew : ∀ e ∈ entries, ∀ k ∈ s.cache.keys, o.isEqual k (transformedKey o e.1) = false)
    (hdistinct : entries.Pairwise
      (fun a b => o.isEqual (transformedKey o a.1) (transformedKey o b.1) = false)) :
    (addAll o s entries).cache.keys =
        (entries.map (fun e => transformedKey o e.1)).reverse ++ s.cache.keys ∧
      (addAll o s entries).cache.keys.length = s.cache.keys.length + entries.length := by
  rw [addAll_of_new o entries s hnew hdistinct]
  refine ⟨rfl, ?_⟩
  simp [Nat.add_comm]

theorem add_never_evicts_witness :
    (addAll plainOptions holdsA [(keyB, JSValue.number 2), (keyC, JSValue.number 3)]).cache.keys =
        ([(keyB, JSValue.number 2), (keyC, JSValue.number 3)].map
          (fun e => transformedKey plainOptions e.1)).reverse ++ holdsA.cache.keys ∧
      (addAll plainOptions holdsA
          [(keyB, JSValue.number 2), (keyC, JSValue.number 3)]).cache.keys.length =
        holdsA.cache.keys.length + [(keyB, JSValue.number 2), (keyC, JSValue.number 3)].length :=
  add_never_evicts plainOptions holdsA [(keyB, JSValue.number 2), (keyC, JSValue.number 3)]
    (by decide) (by decide)

theorem has_eq_false_iff (o : Options) (s : Moized) (key : Key) :
    has o s key = false ↔ ∀ k ∈ s.cache.keys, o.isEqual k (transformedKey o key) = false := by
  rw [← findKeyIndex_eq_neg_one_iff]
  simp [has, bitNot_eq_zero_iff]

theorem has_eq_true_iff (o : Options) (s : Moized) (key : Key) :
    has o s key = true ↔ ∃ k ∈ s.cache.keys, o.isEqual k (transformedKey o key) = true := by
  rw [← findKeyIndex_ne_neg_one_iff]
  simp [has, bitNot_eq_zero_iff]

theorem get_of_absent (o : Options) (fn : Key → JSValue) (s : Moized) (key : Key)
    (h : ∀ k ∈ s.cache.keys, o.isEqual k (transformedKey o key) = false) :
    get o fn s key = (JSValue.undefined, s) := by
  have h1 := (findKeyIndex_eq_neg_one_iff o.isEqual s.cache.keys (transformedKey o key)).2 h
  simp [get, h1, bitNot]

theorem remove_of_absent (o : Options) (s : Moized) (key : Key)
    (h : ∀ k ∈ s.cache.keys, o.isEqual k (transformedKey o key) = false) :
    remove o s key = (JSValue.undefined, s) := by
  have h1 := (findKeyIndex_eq_neg_one_iff o.isEqual s.cache.keys (transformedKey o key)).2 h
  simp [remove, h1, bitNot]

theorem remove_of_present (o : Options) (s : Moized) (key : Key)
    (h : ∃ k ∈ s.cache.keys, o.isEqual k (transformedKey o key) = true) :
    remove o s key =
      (JSValue.undefined,
        { s with
          cache :=
            ⟨s.cache.keys.eraseIdx
                (s.cache.keys.findIdx (fun k => o.isEqual k (transformedKey o key))),
              s.cache.values.eraseIdx
                (s.cache.keys.findIdx (fun k => o.isEqual k (transformedKey o key)))⟩
          notifications :=
            s.notifications ++
              [Notification.onCacheChange
                ⟨s.cache.keys.eraseIdx
                    (s.cache.keys.findIdx (fun k => o.isEqual k (transformedKey o key))),
                  s.cache.values.eraseIdx
                    (s.cache.keys.findIdx (fun k => o.isEqual k (transformedKey o key)))⟩] }) := by
  have hany : (s.cache.keys.any fun k => o.isEqual k (transformedKey o key)) = true := by
    simpa [List.any_eq_true] using h
  have h1 := findKeyIndex_eq o.isEqual s.cache.keys (transformedKey o key)
  rw [if_pos hany] at h1
  have h2 : ¬ bitNot (findKeyIndex o.isEqual s.cache.keys (transformedKey o key)) = 0 := by
    rw [bitNot_eq_zero_iff, h1]; omega
  unfold remove
  simp only [ne_eq, h2, not_false_eq_true, if_true, splice]
  rw [h1]
  rfl

/-! ## C3: get after add -/

/-- C3, as the claim states it, fails in two ways. With a comparator that
equates numbers at most one apart and a key transformer that doubles the first
argument, the keys `[1]` and `[2]` are equal under the comparator (in both
orders), the empty cache does not contain `[1]`, and `get([2])` right after
`add([1], 7)` returns `undefined`: the stored key is `[2]`, the key looked up
is `[4]`. With the plain comparator and the same key transformer, `get([1])`
right after `add([1], 7)` finds the stored key `[2]`, calls the memoized
function with it, which looks up `[4]`, misses and returns the result of the
original function, `null`. -/
theorem get_after_add_not_value :
    (doubleOptions.isEqual keyOne keyTwo = true ∧
        doubleOptions.isEqual keyTwo keyOne = true ∧
        has doubleOptions emptyMoized keyOne = false ∧
        (get doubleOptions constNull
            (add doubleOptions emptyMoized keyOne (JSValue.number 7)).2 keyTwo).1
          = JSValue.undefined ∧
        (get doubleOptions constNull
            (add doubleOptions emptyMoized keyOne (JSValue.number 7)).2 keyTwo).1
          ≠ JSValue.number 7) ∧
      (plainDoubleOptions.isEqual keyOne keyOne = true ∧
        has plainDoubleOptions emptyMoized keyOne = false ∧
        (add plainDoubleOptions emptyMoized keyOne (JSValue.number 7)).2.cache.keys
          = [keyTwo] ∧
        (get plainDoubleOptions constNull
            (add plainDoubleOptions emptyMoized keyOne (JSValue.number 7)).2 keyOne).1
          = JSValue.null ∧
        (get plainDoubleOptions constNull
            (add plainDoubleOptions emptyMoized keyOne (JSValue.number 7)).2 keyOne).1
          ≠ JSValue.number 7) := by
  decide

/-- C3, amended: keys are compared after `transformKey`, and `get` looks the
stored key up once more through the memoized call. For every comparator,
every `transformKey` (or none), every value `v` and keys `k1`, `k2`: if the
cache did not contain `k2`, the stored key `k2'` (the transformed `k2`) equals
the transformed `k1` under the comparator, and `k2'` equals its own transform
under the comparator (with no `transformKey`: `k2` equals itself), then
`get(k1)` right after `add(k2, v)` returns `v`. -/
theorem get_after_add (o : Options) (fn : Key → JSValue) (s : Moized) (k1 k2 : Key)
    (v : JSValue)
    (habsent : has o s k2 = false)
    (hequal : o.isEqual (transformedKey o k2) (transformedKey o k1) = true)
    (hself : o.isEqual (transformedKey o k2) (transformedKey o (transformedKey o k2)) = true) :
    (get o fn (add o s k2 v).2 k1).1 = v := by
  rw [add_of_absent o s k2 v ((has_eq_false_iff o s k2).1 habsent)]
  simp [get, memoized, findKeyIndex_cons_of_equal, hequal, hself, bitNot]

theorem get_after_add_witness :
    has nearFirstOptions holdsA keyOneFive = false ∧
      nearFirstOptions.isEqual (transformedKey nearFirstOptions keyOneFive)
        (transformedKey nearFirstOptions keyTwoNine) = true ∧
      nearFirstOptions.isEqual (transformedKey nearFirstOptions keyOneFive)
        (transformedKey nearFirstOptions (transformedKey nearFirstOptions keyOneFive)) = true ∧
      keyOneFive ≠ keyTwoNine ∧
      (get nearFirstOptions constNull
          (add nearFirstOptions holdsA keyOneFive (JSValue.number 7)).2 keyTwoNine).1
        = JSValue.number 7 :=
  ⟨by decide, by decide, by decide, by decide,
    get_after_add nearFirstOptions constNull holdsA keyTwoNine keyOneFive (JSValue.number 7)
      (by decide) (by decide) (by decide)⟩

/-! ## The invariant of the manual mutations -/

theorem noEqualKeys_add (o : Options)
    (hsymm : ∀ a b, o.isEqual a b = true → o.isEqual b a = true)
    (s : Moized) (key : Key) (value : JSValue) (h : NoEqualKeys o.isEqual s.cache.keys) :
    NoEqualKeys o.isEqual (add o s key value).2.cache.keys := by
  by_cases hp : ∃ k ∈ s.cache.keys, o.isEqual k (transformedKey o key) = true
  · rw [add_of_present o s key value hp]; exact h
  · have ha : ∀ k ∈ s.cache.keys, o.isEqual k (transformedKey o key) = false := by
      intro k hk
      by_contra hkk
      exact hp ⟨k, hk, by simpa using hkk⟩
    rw [add_of_absent o s key value ha]
    show NoEqualKeys o.isEqual (transformedKey o key :: s.cache.keys)
    unfold NoEqualKeys
    rw [List.pairwise_cons]
    refine ⟨?_, h⟩
    intro k hk
    refine ⟨?_, ha k hk⟩
    by_contra hkk
    have := hsymm (transformedKey o key) k (by simpa using hkk)
    rw [ha k hk] at this
    cases this

theorem noEqualKeys_remove (o : Options) (s : Moized) (key : Key)
    (h : NoEqualKeys o.isEqual s.cache.keys) :
    NoEqualKeys o.isEqual (remove o s key).2.cache.keys := by
  by_cases hp : ∃ k ∈ s.cache.keys, o.isEqual k (transformedKey o key) = true
  · rw [remove_of_present o s key hp]
    exact List.Pairwise.sublist (List.eraseIdx_sublist _ _) h
  · have ha : ∀ k ∈ s.cache.keys, o.isEqual k (transformedKey o key) = false := by
      intro k hk
      by_contra hkk
      exact hp ⟨k, hk, by simpa using hkk⟩
    rw [remove_of_absent o s key ha]; exact h

theorem noEqualKeys_step (o : Options)
    (hsymm : ∀ a b, o.isEqual a b = true → o.isEqual b a = true)
    (s : Moized) (op : Op) (h : NoEqualKeys o.isEqual s.cache.keys) :
    NoEqualKeys o.isEqual (step o s op).cache.keys := by
  cases op with
  | add key value => exact noEqualKeys_add o hsymm s key value h
  | remove key => exact noEqualKeys_remove o s key h
  | clear => exact List.Pairwise.nil

theorem noEqualKeys_run (o : Options)
    (hsymm : ∀ a b, o.isEqual a b = true → o.isEqual b a = true)
    (ops : List Op) (s : Moized) (h : NoEqualKeys o.isEqual s.cache.keys) :
    NoEqualKeys o.isEqual (run o s ops).cache.keys := by
  induction ops generalizing s with
  | nil => exact h
  | cons op ops ih => exact ih (step o s op) (noEqualKeys_step o hsymm s op h)

theorem eraseIdx_findIdx_absent (isEqual : Key → Key → Bool) (heq : IsEquivalence isEqual)
    (key : Key) (ks : List Key) (h : NoEqualKeys isEqual ks) :
    ∀ x ∈ ks.eraseIdx (ks.findIdx (fun k => isEqual k key)), isEqual x key = false := by
  induction ks with
  | nil => intro x hx; simp at hx
  | cons a l ih =>
    unfold NoEqualKeys at h
    rw [List.pairwise_cons] at h
    intro x hx
    rw [List.findIdx_cons] at hx
    by_cases ha : isEqual a key = true
    · simp only [ha, cond_true, List.eraseIdx_cons_zero] at hx
      by_contra hxk
      have hxk' : isEqual x key = true := by simpa using hxk
      have hxa : isEqual x a = true := heq.2.2 x key a hxk' (heq.2.1 a key ha)
      rw [(h.1 x hx).2] at hxa
      cases hxa
    · have ha' : isEqual a key = false := by simpa using ha
      simp only [ha', cond_false, List.eraseIdx_cons_succ, List.mem_cons] at hx
      rcases hx with hx | hx
      · rw [hx]; exact ha'
      · exact ih h.2 x hx

theorem remove_absent_of_noEqualKeys (o : Options) (heq : IsEquivalence o.isEqual)
    (s : Moized) (key : Key) (h : NoEqualKeys o.isEqual s.cache.keys) :
    ∀ x ∈ (remove o s key).2.cache.keys, o.isEqual x (transformedKey o key) = false := by
  by_cases hp : ∃ k ∈ s.cache.keys, o.isEqual k (transformedKey o key) = true
  · rw [remove_of_present o s key hp]
    exact eraseIdx_findIdx_absent o.isEqual heq (transformedKey o key) s.cache.keys h
  · have ha : ∀ k ∈ s.cache.keys, o.isEqual k (transformedKey o key) = false := by
      intro k hk
      by_contra hkk
      exact hp ⟨k, hk, by simpa using hkk⟩
    rw [remove_of_absent o s key ha]; exact ha

theorem plainOptions_isEquivalence : IsEquivalence plainOptions.isEqual := by
  refine ⟨?_, ?_, ?_⟩
  · intro a; simp [plainOptions]
  · intro a b h
    have : a = b := by simpa [plainOptions] using h
    simp [plainOptions, this]
  · intro a b c h1 h2
    have e1 : a = b := by simpa [plainOptions] using h1
    have e2 : b = c := by simpa [plainOptions] using h2
    simp [plainOptions, e1, e2]

/-! ## C4: remove, then look the key up -/

/-- C4: when the comparator is an equivalence relation, in every state reached
from the empty cache by a sequence of `add`, `remove` and `clear`, and for
every key, after `remove(key)` the key is absent: `has(key)` is `false` and
`get(key)` returns the not-found result `undefined` and leaves the state as
`remove` left it. -/
theorem remove_then_lookup_not_found (o : Options) (heq : IsEquivalence o.isEqual)
    (fn : Key → JSValue) (ops : List Op) (key : Key) :
    has o (remove o (run o emptyMoized ops) key).2 key = false ∧
      get o fn (remove o (run o emptyMoized ops) key).2 key =
        (JSValue.undefined, (remove o (run o emptyMoized ops) key).2) := by
  have hinv : NoEqualKeys o.isEqual (run o emptyMoized ops).cache.keys :=
    noEqualKeys_run o heq.2.1 ops emptyMoized List.Pairwise.nil
  have habs := remove_absent_of_noEqualKeys o heq (run o emptyMoized ops) key hinv
  exact ⟨(has_eq_false_iff o _ key).2 habs, get_of_absent o fn _ key habs⟩

theorem remove_then_lookup_not_found_witness :
    IsEquivalence plainOptions.isEqual ∧
      has plainOptions
          (remove plainOptions
            (run plainOptions emptyMoized
              [Op.add keyA (JSValue.number 1), Op.add keyB (JSValue.number 2)]) keyA).2 keyA
        = false ∧
      get plainOptions constNull
          (remove plainOptions
            (run plainOptions emptyMoized
              [Op.add keyA (JSValue.number 1), Op.add keyB (JSValue.number 2)]) keyA).2 keyA
        = (JSValue.undefined,
            (remove plainOptions
              (run plainOptions emptyMoized
                [Op.add keyA (JSValue.number 1), Op.add keyB (JSValue.number 2)]) keyA).2) :=
  ⟨plainOptions_isEquivalence,
    remove_then_lookup_not_found plainOptions plainOptions_isEquivalence constNull
      [Op.add keyA (JSValue.number 1), Op.add keyB (JSValue.number 2)] keyA⟩

/-! ## C5: at most one entry per equal key -/

/-- C5: when the comparator is an equivalence relation, in every state reached
from the empty cache by a sequence of `add`, `remove` and `clear`, no two
distinct positions of the keys list hold keys that are equal under the
comparator. -/
theorem at_most_one_entry_per_key (o : Options) (heq : IsEquivalence o.isEqual)
    (ops : List Op) (i j : Nat)
    (hi : i < (run o emptyMoized ops).cache.keys.length)
    (hj : j < (run o emptyMoized ops).cache.keys.length) (hij : i ≠ j) :
    o.isEqual ((run o emptyMoized ops).cache.keys.get ⟨i, hi⟩)
      ((run o emptyMoized ops).cache.keys.get ⟨j, hj⟩) = false := by
  have hinv : NoEqualKeys o.isEqual (run o emptyMoized ops).cache.keys :=
    noEqualKeys_run o heq.2.1 ops emptyMoized List.Pairwise.nil
  unfold NoEqualKeys at hinv
  rw [List.pairwise_iff_getElem] at hinv
  rcases Nat.lt_or_gt_of_ne hij with hlt | hgt
  · exact (hinv i j hi hj hlt).1
  · exact (hinv j i hj hi hgt).2

theorem at_most_one_entry_per_key_witness :
    IsEquivalence plainOptions.isEqual ∧
      plainOptions.isEqual
        ((run plainOptions emptyMoized
          [Op.add keyA (JSValue.number 1), Op.add keyB (JSValue.number 2),
            Op.add keyA (JSValue.number 3)]).cache.keys.get ⟨0, by decide⟩)
        ((run plainOptions emptyMoized
          [Op.add keyA (JSValue.number 1), Op.add keyB (JSValue.number 2),
            Op.add keyA (JSValue.number 3)]).cache.keys.get ⟨1, by decide⟩) = false :=
  ⟨plainOptions_isEquivalence,
    at_most_one_entry_per_key plainOptions plainOptions_isEquivalence
      [Op.add keyA (JSValue.number 1), Op.add keyB (JSValue.number 2),
        Op.add keyA (JSValue.number 3)] 0 1 (by decide) (by decide) (by decide)⟩

/-! ## C6: the result of get on an absent key -/

/-- C6, as the claim states it, fails: in the cache holding `['a'] -> undefined`
the key `['b']` is absent and the key `['a']` is present with the stored value
`undefined`, and `get` returns the same result, `undefined`, for both. -/
theorem get_not_found_equals_stored_undefined :
    has plainOptions holdsUndefined keyB = false ∧
      has plainOptions holdsUndefined keyA = true ∧
      holdsUndefined.cache.values = [JSValue.undefined] ∧
      (get plainOptions constNull holdsUndefined keyB).1 =
        (get plainOptions constNull holdsUndefined keyA).1 := by
  decide

/-- C6, amended: for every cache state and every key with no equal key in the
cache, `get` returns `undefined` and leaves the state unchanged. This result
is equal to the result of `get` on another key exactly when that result is
`undefined`, so it differs from every cached value other than `undefined`. -/
theorem get_not_found_is_undefined (o : Options) (fn : Key → JSValue) (s : Moized)
    (key : Key) (habsent : has o s key = false) :
    get o fn s key = (JSValue.undefined, s) ∧
      ∀ other : Key,
        (get o fn s key).1 = (get o fn s other).1 ↔ (get o fn s other).1 = JSValue.undefined := by
  have h := get_of_absent o fn s key ((has_eq_false_iff o s key).1 habsent)
  refine ⟨h, ?_⟩
  intro other
  rw [h]
  exact eq_comm

theorem get_not_found_is_undefined_witness :
    has plainOptions holdsA keyB = false ∧
      get plainOptions constNull holdsA keyB = (JSValue.undefined, holdsA) ∧
      ∀ other : Key,
        (get plainOptions constNull holdsA keyB).1 = (get plainOptions constNull holdsA other).1 ↔
          (get plainOptions constNull holdsA other).1 = JSValue.undefined :=
  ⟨by decide, get_not_found_is_undefined plainOptions constNull holdsA keyB (by decide)⟩

/-! ## C7: the result of remove -/

/-- C7, as the claim states it, fails: in the cache holding `['a'] -> 1` the key
`['a']` is present, `remove(['a'])` removes its entry, and the call returns
`undefined`, not `true`. -/
theorem remove_does_not_return_true :
    has plainOptions holdsA keyA = true ∧
      (remove plainOptions holdsA keyA).2.cache = ⟨[], []⟩ ∧
      (remove plainOptions holdsA keyA).1 = JSValue.undefined ∧
      (remove plainOptions holdsA keyA).1 ≠ JSValue.bool true := by
  decide

/-- C7, amended: `remove` is declared `void`; for every cache state and key it
returns `undefined`. Whether it removed shows on the cache only: if a key equal
to the given one was present the keys list is one entry shorter afterwards, and
otherwise the state is unchanged. -/
theorem remove_returns_undefined (o : Options) (s : Moized) (key : Key) :
    (remove o s key).1 = JSValue.undefined ∧
      (has o s key = true →
        (remove o s key).2.cache.keys.length + 1 = s.cache.keys.length) ∧
      (has o s key = false → (remove o s key).2 = s) := by
  refine ⟨?_, ?_, ?_⟩
  · simp only [remove]
    split <;> rfl
  · intro h
    have hp := (has_eq_true_iff o s key).1 h
    rw [remove_of_present o s key hp]
    exact List.length_eraseIdx_add_one (List.findIdx_lt_length_of_exists hp)
  · intro h
    rw [remove_of_absent o s key ((has_eq_false_iff o s key).1 h)]

theorem remove_returns_undefined_witness :
    (remove plainOptions holdsA keyA).1 = JSValue.undefined ∧
      (remove plainOptions holdsA keyA).2.cache.keys.length + 1 = holdsA.cache.keys.length ∧
      (remove plainOptions holdsA keyB).2 = holdsA :=
  ⟨(remove_returns_undefined plainOptions holdsA keyA).1,
    (remove_returns_undefined plainOptions holdsA keyA).2.1 (by decide),
    (remove_returns_undefined plainOptions holdsA keyB).2.2 (by decide)⟩

/-! ## C8: removal and the expirations list -/

/-- C8, as the claim states it, fails: with an expiration armed for the cached
key `['a']`, `remove(['a'])` empties the cache and the expirations list still
holds the expiration of `['a']`; the same after `clear()`. -/
theorem remove_leaves_expiration :
    (remove plainOptions armedA keyA).2.cache = ⟨[], []⟩ ∧
      (∃ e ∈ (remove plainOptions armedA keyA).2.expirations,
        plainOptions.isEqual e.key keyA = true) ∧
      (clear armedA).2.cache = ⟨[], []⟩ ∧
      (∃ e ∈ (clear armedA).2.expirations, plainOptions.isEqual e.key keyA = true) := by
  refine ⟨by decide, ⟨⟨keyA, 50⟩, by decide, by decide⟩, by decide,
    ⟨⟨keyA, 50⟩, by decide, by decide⟩⟩

/-- C8, amended: `remove` and `clear` do not touch the expirations list. For
every state and key, the expirations after `remove(key)` and after `clear()`
are exactly the expirations before; no expiration is cancelled by them. -/
theorem remove_clear_keep_expirations (o : Options) (s : Moized) (key : Key) :
    (remove o s key).2.expirations = s.expirations ∧ (clear s).2.expirations = s.expirations := by
  refine ⟨?_, rfl⟩
  simp only [remove]
  split <;> rfl

/-! ## C9: change notifications -/

theorem step_eq_expected (o : Options) (s : Moized) (op : Op) :
    (step o s op).cache = expectedCache o s.cache op ∧
      (step o s op).notifications =
        s.notifications ++ expectedNotificationsOf o s.cache op := by
  cases op with
  | add key value =>
    by_cases hp : ∃ k ∈ s.cache.keys, o.isEqual k (transformedKey o key) = true
    · have hany : (s.cache.keys.any fun k => o.isEqual k (transformedKey o key)) = true := by
        simpa [List.any_eq_true] using hp
      simp [step, add_of_present o s key value hp, expectedCache, expectedNotificationsOf, hany]
    · have ha : ∀ k ∈ s.cache.keys, o.isEqual k (transformedKey o key) = false := by
        intro k hk
        by_contra hkk
        exact hp ⟨k, hk, by simpa using hkk⟩
      have hany : ¬ (s.cache.keys.any fun k => o.isEqual k (transformedKey o key)) = true := by
        simpa [List.any_eq_true] using hp
      simp [step, add_of_absent o s key value ha, expectedCache, expectedNotificationsOf, hany]
  | remove key =>
    by_cases hp : ∃ k ∈ s.cache.keys, o.isEqual k (transformedKey o key) = true
    · have hany : (s.cache.keys.any fun k => o.isEqual k (transformedKey o key)) = true := by
        simpa [List.any_eq_true] using hp
      simp [step, remove_of_present o s key hp, expectedCache, expectedNotificationsOf, hany]
    · have ha : ∀ k ∈ s.cache.keys, o.isEqual k (transformedKey o key) = false := by
        intro k hk
        by_contra hkk
        exact hp ⟨k, hk, by simpa using hkk⟩
      have hany : ¬ (s.cache.keys.any fun k => o.isEqual k (transformedKey o key)) = true := by
        simpa [List.any_eq_true] using hp
      simp [step, remove_of_absent o s key ha, expectedCache, expectedNotificationsOf, hany]
  | clear => simp [step, clear, expectedCache, expectedNotificationsOf]

theorem run_notifications (o : Options) (ops : List Op) (s : Moized) :
    (run o s ops).notifications = s.notifications ++ expectedNotifications o s.cache ops := by
  induction ops generalizing s with
  | nil => simp [run, expectedNotifications]
  | cons op ops ih =>
    have hrun : run o s (op :: ops) = run o (step o s op) ops := by simp [run]
    rw [hrun, ih, (step_eq_expected o s op).1, (step_eq_expected o s op).2]
    simp [expectedNotifications]

/-- C9: an `add` that inserts records `onCacheAdd` and then `onCacheChange`,
both with the cache holding the new entry in front; a `remove` that deletes
records one `onCacheChange` with the cache without the entry; `clear` records
one `onCacheChange` with the empty cache; a `remove` of an absent key records
nothing. Over any sequence of manual mutations the notification log grows by
exactly the notifications of each mutation, in the order of the mutations. -/
theorem change_notifications (o : Options) (s : Moized) (ops : List Op) (key : Key)
    (value : JSValue) :
    (has o s key = false →
      (add o s key value).2.cache =
          ⟨transformedKey o key :: s.cache.keys, value :: s.cache.values⟩ ∧
        (add o s key value).2.notifications =
          s.notifications ++
            [Notification.onCacheAdd (add o s key value).2.cache,
              Notification.onCacheChange (add o s key value).2.cache]) ∧
      (has o s key = true →
        (remove o s key).2.cache.keys.length + 1 = s.cache.keys.length ∧
          (remove o s key).2.notifications =
            s.notifications ++ [Notification.onCacheChange (remove o s key).2.cache]) ∧
      ((clear s).2.cache = ⟨[], []⟩ ∧
        (clear s).2.notifications =
          s.notifications ++ [Notification.onCacheChange (clear s).2.cache]) ∧
      (has o s key = false → (remove o s key).2.notifications = s.notifications) ∧
      (run o s ops).notifications = s.notifications ++ expectedNotifications o s.cache ops := by
  refine ⟨?_, ?_, ⟨rfl, rfl⟩, ?_, run_notifications o ops s⟩
  · intro h
    rw [add_of_absent o s key value ((has_eq_false_iff o s key).1 h)]
    exact ⟨rfl, rfl⟩
  · intro h
    have hp := (has_eq_true_iff o s key).1 h
    rw [remove_of_present o s key hp]
    exact ⟨List.length_eraseIdx_add_one (List.findIdx_lt_length_of_exists hp), rfl⟩
  · intro h
    rw [remove_of_absent o s key ((has_eq_false_iff o s key).1 h)]

theorem change_notifications_witness :
    ((add plainOptions holdsA keyB (JSValue.number 2)).2.cache =
          ⟨[keyB, keyA], [JSValue.number 2, JSValue.number 1]⟩ ∧
        (add plainOptions holdsA keyB (JSValue.number 2)).2.notifications =
          [Notification.onCacheAdd ⟨[keyB, keyA], [JSValue.number 2, JSValue.number 1]⟩,
            Notification.onCacheChange ⟨[keyB, keyA], [JSValue.number 2, JSValue.number 1]⟩]) ∧
      ((remove plainOptions holdsA keyA).2.cache.keys.length + 1 = holdsA.cache.keys.length ∧
        (remove plainOptions holdsA keyA).2.notifications =
          holdsA.notifications ++
            [Notification.onCacheChange (remove plainOptions holdsA keyA).2.cache]) ∧
      (remove plainOptions holdsA keyB).2.notifications = holdsA.notifications ∧
      (run plainOptions holdsA
          [Op.remove keyB, Op.add keyB (JSValue.number 2), Op.add keyB (JSValue.number 3),
            Op.remove keyA, Op.clear]).notifications =
        [Notification.onCacheAdd ⟨[keyB, keyA], [JSValue.number 2, JSValue.number 1]⟩,
          Notification.onCacheChange ⟨[keyB, keyA], [JSValue.number 2, JSValue.number 1]⟩,
          Notification.onCacheChange ⟨[keyB], [JSValue.number 2]⟩,
          Notification.onCacheChange ⟨[], []⟩] :=
  ⟨(change_notifications plainOptions holdsA [] keyB (JSValue.number 2)).1 (by decide),
    (change_notifications plainOptions holdsA [] keyA (JSValue.number 2)).2.1 (by decide),
    (change_notifications plainOptions holdsA [] keyB (JSValue.number 2)).2.2.2.1 (by decide),
    (change_notifications plainOptions holdsA
      [Op.remove keyB, Op.add keyB (JSValue.number 2), Op.add keyB (JSValue.number 3),
        Op.remove keyA, Op.clear] keyB (JSValue.number 2)).2.2.2.2⟩

/-! ## C10: keys() and values() -/

/-- C10: `keys()` returns the stored keys and `values()` the stored values,
element for element and in the stored order, and neither changes the state.
After adding entries with keys that are pairwise not equal to the empty cache,
`values()` is their values, last added first, hence a rearrangement of exactly
those values. After `add(['foo'], 'bar')` and `add(['bar'], 'baz')` the sorted
values are `['bar', 'baz']`. -/
theorem keys_values_snapshots (o : Options) (s : Moized) (entries : List (Key × JSValue)) :
    (keys s).1 = s.cache.keys ∧ (keys s).2 = s ∧
      (values s).1 = s.cache.values ∧ (values s).2 = s ∧
      (entries.Pairwise
          (fun a b => o.isEqual (transformedKey o a.1) (transformedKey o b.1) = false) →
        (values (addAll o emptyMoized entries)).1 = (entries.map (fun e => e.2)).reverse ∧
          List.Perm (values (addAll o emptyMoized entries)).1 (entries.map (fun e => e.2))) ∧
      sort (values (addAll plainOptions emptyMoized
          [(keyFoo, JSValue.string "bar"), (keyBar, JSValue.string "baz")])).1 =
        [JSValue.string "bar", JSValue.string "baz"] := by
  refine ⟨rfl, rfl, rfl, rfl, ?_, by decide⟩
  intro hdistinct
  have h := addAll_of_new o entries emptyMoized (by intro e _ k hk; cases hk) hdistinct
  have hv : (values (addAll o emptyMoized entries)).1 = (entries.map (fun e => e.2)).reverse := by
    show (addAll o emptyMoized entries).cache.values = _
    rw [h]
    simp [emptyMoized]
  rw [hv]
  exact ⟨rfl, List.reverse_perm _⟩

theorem keys_values_snapshots_witness :
    (values (addAll plainOptions emptyMoized
        [(keyFoo, JSValue.string "bar"), (keyBar, JSValue.string "baz")])).1 =
        [JSValue.string "baz", JSValue.string "bar"] ∧
      List.Perm
        (values (addAll plainOptions emptyMoized
          [(keyFoo, JSValue.string "bar"), (keyBar, JSValue.string "baz")])).1
        [JSValue.string "bar", JSValue.string "baz"] :=
  (keys_values_snapshots plainOptions emptyMoized
    [(keyFoo, JSValue.string "bar"), (keyBar, JSValue.string "baz")]).2.2.2.2.1 (by decide)

/-! ## C11: the two parallel arrays -/

theorem findIdx_map_fst (p : Key → Bool) (es : List (Key × JSValue)) :
    (es.map Prod.fst).findIdx p = es.findIdx (fun e => p e.1) := by
  induction es with
  | nil => rfl
  | cons e es ih => simp only [List.map_cons, List.findIdx_cons, ih]

theorem map_eraseIdx_entries {β : Type} (f : Key × JSValue → β) (es : List (Key × JSValue))
    (i : Nat) : (es.eraseIdx i).map f = (es.map f).eraseIdx i := by
  induction es generalizing i with
  | nil => rfl
  | cons e es ih =>
    cases i with
    | zero => rfl
    | succ i => simp only [List.eraseIdx_cons_succ, List.map_cons, ih]

theorem expectedCache_entries (o : Options) (es : List (Key × JSValue)) (op : Op) :
    expectedCache o ⟨es.map Prod.fst, es.map Prod.snd⟩ op =
      ⟨(entryStep o es op).map Prod.fst, (entryStep o es op).map Prod.snd⟩ := by
  have hany : ∀ key : Key,
      ((es.map Prod.fst).any fun k => o.isEqual k (transformedKey o key)) =
        es.any (fun e => o.isEqual e.1 (transformedKey o key)) := by
    intro key
    induction es with
    | nil => rfl
    | cons e es ih => simp only [List.map_cons, List.any_cons, ih]
  cases op with
  | add key value =>
    simp only [expectedCache, entryStep, hany]
    by_cases h : (es.any fun e => o.isEqual e.1 (transformedKey o key)) = true
    · rw [if_pos h, if_pos h]
    · rw [if_neg h, if_neg h]
      rfl
  | remove key =>
    simp only [expectedCache, entryStep, hany, findIdx_map_fst, map_eraseIdx_entries]
    by_cases h : (es.any fun e => o.isEqual e.1 (transformedKey o key)) = true
    · rw [if_pos h]
    · rw [if_neg h]
      have hfalse : ∀ e ∈ es, (fun e : Key × JSValue => o.isEqual e.1 (transformedKey o key)) e
          = false := by
        intro e he
        by_contra hc
        apply h
        rw [List.any_eq_true]
        exact ⟨e, he, by simpa using hc⟩
      rw [List.findIdx_eq_length_of_false hfalse]
      rw [List.eraseIdx_of_length_le (by simp), List.eraseIdx_of_length_le (by simp)]
  | clear => rfl

theorem run_entries (o : Options) (ops : List Op) (s : Moized) (es : List (Key × JSValue))
    (h : s.cache = ⟨es.map Prod.fst, es.map Prod.snd⟩) :
    (run o s ops).cache =
      ⟨(runEntries o es ops).map Prod.fst, (runEntries o es ops).map Prod.snd⟩ := by
  induction ops generalizing s es with
  | nil => simpa [run, runEntries] using h
  | cons op ops ih =>
    have hrun : run o s (op :: ops) = run o (step o s op) ops := by simp [run]
    have hent : runEntries o es (op :: ops) = runEntries o (entryStep o es op) ops := by
      simp [runEntries]
    rw [hrun, hent]
    apply ih
    rw [(step_eq_expected o s op).1, h, expectedCache_entries]

/-- C11: in every state reached from the empty cache by `add`, `remove` and
`clear`, the keys list and the values list have the same length, the size
given by the getters `cache` and `cacheSnapshot` is that length, and the two
lists are the keys and the values of one list of entries on which every
mutation acted as a whole, so the value stored with a key stays at the index of
that key; `remove` deletes from both lists at one and the same index. -/
theorem parallel_sequences (o : Options) (ops : List Op) (key : Key) :
    (run o emptyMoized ops).cache.keys.length = (run o emptyMoized ops).cache.values.length ∧
      (cache (run o emptyMoized ops)).size = (run o emptyMoized ops).cache.keys.length ∧
      (cacheSnapshot (run o emptyMoized ops)).size = (run o emptyMoized ops).cache.keys.length ∧
      (run o emptyMoized ops).cache.keys = (runEntries o [] ops).map Prod.fst ∧
      (run o emptyMoized ops).cache.values = (runEntries o [] ops).map Prod.snd ∧
      ∃ i : Nat,
        (remove o (run o emptyMoized ops) key).2.cache.keys =
            (run o emptyMoized ops).cache.keys.eraseIdx i ∧
          (remove o (run o emptyMoized ops) key).2.cache.values =
            (run o emptyMoized ops).cache.values.eraseIdx i := by
  have h := run_entries o ops emptyMoized [] rfl
  have hlen : (run o emptyMoized ops).cache.keys.length =
      (run o emptyMoized ops).cache.values.length := by
    rw [h]; simp
  refine ⟨hlen, rfl, rfl, by rw [h], by rw [h], ?_⟩
  by_cases hp : ∃ k ∈ (run o emptyMoized ops).cache.keys, o.isEqual k (transformedKey o key) = true
  · rw [remove_of_present o _ key hp]
    exact ⟨_, rfl, rfl⟩
  · have ha : ∀ k ∈ (run o emptyMoized ops).cache.keys,
        o.isEqual k (transformedKey o key) = false := by
      intro k hk
      by_contra hkk
      exact hp ⟨k, hk, by simpa using hkk⟩
    rw [remove_of_absent o _ key ha]
    refine ⟨(run o emptyMoized ops).cache.keys.length, ?_, ?_⟩
    · exact (List.eraseIdx_of_length_le (Nat.le_refl _)).symm
    · exact (List.eraseIdx_of_length_le (Nat.le_of_eq hlen.symm)).symm

/-! ## C12: the rejection handler -/

theorem memoized_of_absent (o : Options) (fn : Key → JSValue) (s : Moized) (args : Key)
    (h : ∀ k ∈ s.cache.keys, o.isEqual k (transformedKey o args) = false) :
    (memoized o fn s args).1 = fn args := by
  have h1 := (findKeyIndex_eq_neg_one_iff o.isEqual s.cache.keys (transformedKey o args)).2 h
  simp [memoized, h1]

/-- C12, as the claim states it, fails: with a comparator that equates numbers
at most one apart, in the cache holding `[0] -> 'p0'` and `[2] -> 'p2'` (no two
stored keys are equal), the rejection handler made for the key `[1]` returns a
rejection with the error it is given and removes the entry of `[0]`, the first
stored key equal to `[1]`; afterwards `has([1])` is still `true`, because the
stored key `[2]` equals `[1]`, and a later call with `[1]` is served the cached
`'p2'` instead of computing the original function again. -/
theorem rejection_leaves_key_present :
    NoEqualKeys nearOptions.isEqual holdsZeroTwo.cache.keys ∧
      (createPromiseRejecter nearOptions keyOne holdsZeroTwo (JSValue.string "boom")).1 =
        Settled.rejected (JSValue.string "boom") ∧
      (createPromiseRejecter nearOptions keyOne holdsZeroTwo (JSValue.string "boom")).2.cache =
        ⟨[keyTwo], [JSValue.string "p2"]⟩ ∧
      has nearOptions
        (createPromiseRejecter nearOptions keyOne holdsZeroTwo (JSValue.string "boom")).2 keyOne
        = true ∧
      (memoized nearOptions constNull
        (createPromiseRejecter nearOptions keyOne holdsZeroTwo (JSValue.string "boom")).2
        keyOne).1 = JSValue.string "p2" ∧
      (memoized nearOptions constNull
        (createPromiseRejecter nearOptions keyOne holdsZeroTwo (JSValue.string "boom")).2
        keyOne).1 ≠ constNull keyOne := by
  refine ⟨?_, by decide, by decide, by decide, by decide, by decide⟩
  simp only [NoEqualKeys, holdsZeroTwo, List.pairwise_cons, List.mem_singleton, forall_eq,
    List.not_mem_nil, false_implies, implies_true, List.Pairwise.nil, and_true]
  decide

/-- C12, amended: when the comparator is an equivalence relation and the cache
holds at most one entry per equal key (as every state reached by `add`,
`remove` and `clear` does), then for every key and every error the rejection
handler made for the key returns a rejection carrying exactly that error,
removes the entry of the key and nothing else, leaves the expirations as they
are, leaves the key absent, and a later call of the memoized function with the
key computes the original function again. -/
theorem rejection_evicts (o : Options) (heq : IsEquivalence o.isEqual) (fn : Key → JSValue)
    (s : Moized) (hinv : NoEqualKeys o.isEqual s.cache.keys) (key : Key) (e : JSValue) :
    (createPromiseRejecter o key s e).1 = Settled.rejected e ∧
      (createPromiseRejecter o key s e).2.cache = expectedCache o s.cache (Op.remove key) ∧
      (createPromiseRejecter o key s e).2.expirations = s.expirations ∧
      has o (createPromiseRejecter o key s e).2 key = false ∧
      (memoized o fn (createPromiseRejecter o key s e).2 key).1 = fn key := by
  have habs := remove_absent_of_noEqualKeys o heq s key hinv
  refine ⟨rfl, (step_eq_expected o s (Op.remove key)).1, ?_,
    (has_eq_false_iff o _ key).2 habs, memoized_of_absent o fn _ key habs⟩
  show (remove o s key).2.expirations = s.expirations
  simp only [remove]
  split <;> rfl

theorem rejection_evicts_witness :
    IsEquivalence plainOptions.isEqual ∧ NoEqualKeys plainOptions.isEqual holdsA.cache.keys ∧
      (createPromiseRejecter plainOptions keyA holdsA (JSValue.string "boom")).1 =
        Settled.rejected (JSValue.string "boom") ∧
      (createPromiseRejecter plainOptions keyA holdsA (JSValue.string "boom")).2.cache =
        expectedCache plainOptions holdsA.cache (Op.remove keyA) ∧
      (createPromiseRejecter plainOptions keyA holdsA (JSValue.string "boom")).2.expirations =
        holdsA.expirations ∧
      has plainOptions
        (createPromiseRejecter plainOptions keyA holdsA (JSValue.string "boom")).2 keyA = false ∧
      (memoized plainOptions constNull
        (createPromiseRejecter plainOptions keyA holdsA (JSValue.string "boom")).2 keyA).1 =
        constNull keyA :=
  ⟨plainOptions_isEquivalence, by simp [NoEqualKeys, holdsA],
    rejection_evicts plainOptions plainOptions_isEquivalence constNull holdsA
      (by simp [NoEqualKeys, holdsA]) keyA (JSValue.string "boom")⟩

/-! ## C13: static component fields -/

/-- C13: `augmentMoizeInstance` returns the function object it was given. When
`isReact` is truthy, reading `contextTypes`, `defaultProps` and `propTypes` on
the memoized function gives what reading them on the original function gives
(`undefined` for a field the original lacks); when `isReact` is not truthy no
field is assigned and the memoized function is as it was. -/
theorem static_fields_forwarded (moized : FunctionObject) (configuration : Configuration) :
    (augmentMoizeInstance moized configuration).ref = moized.ref ∧
      (truthy configuration.options.isReact = true →
        readProperty (augmentMoizeInstance moized configuration).contextTypes =
            readProperty configuration.originalFunction.contextTypes ∧
          readProperty (augmentMoizeInstance moized configuration).defaultProps =
            readProperty configuration.originalFunction.defaultProps ∧
          readProperty (augmentMoizeInstance moized configuration).propTypes =
            readProperty configuration.originalFunction.propTypes) ∧
      (truthy configuration.options.isReact = false →
        augmentMoizeInstance moized configuration = moized) := by
  refine ⟨?_, ?_, ?_⟩
  · simp only [augmentMoizeInstance, addInstanceMethods, addInstanceProperties]
    split <;> rfl
  · intro h
    simp only [augmentMoizeInstance, addInstanceMethods, addInstanceProperties, h, if_true]
    exact ⟨rfl, rfl, rfl⟩
  · intro h
    simp [augmentMoizeInstance, addInstanceMethods, addInstanceProperties, h]

theorem static_fields_forwarded_witness :
    (readProperty
          (augmentMoizeInstance memoizedFn ⟨[], ⟨JSValue.bool true⟩, originalFnOne⟩).contextTypes =
          JSValue.undefined ∧
        readProperty
          (augmentMoizeInstance memoizedFn ⟨[], ⟨JSValue.bool true⟩, originalFnOne⟩).defaultProps =
          JSValue.string "foo" ∧
        readProperty
          (augmentMoizeInstance memoizedFn ⟨[], ⟨JSValue.bool true⟩, originalFnOne⟩).propTypes =
          JSValue.undefined) ∧
      augmentMoizeInstance memoizedFn ⟨[], ⟨JSValue.undefined⟩, originalFnAll⟩ = memoizedFn :=
  ⟨(static_fields_forwarded memoizedFn ⟨[], ⟨JSValue.bool true⟩, originalFnOne⟩).2.1 (by decide),
    (static_fields_forwarded memoizedFn ⟨[], ⟨JSValue.undefined⟩, originalFnAll⟩).2.2
      (by decide)⟩

/-! ## C14: has and its reference definition -/

/-- C14, as the claim states it, fails in its last part: with a comparator that
equates numbers at most one apart, the keys `[1]` and `[2]` are equal, the
cache holds `[0]`, `add([1], 7)` finds `[0]` equal to `[1]` and stores nothing,
and `has([2])` right after it is `false`. -/
theorem has_after_add_false :
    nearOptions.isEqual (transformedKey nearOptions keyOne) (transformedKey nearOptions keyTwo)
        = true ∧
      (add nearOptions holdsZero keyOne (JSValue.number 7)).2 = holdsZero ∧
      has nearOptions (add nearOptions holdsZero keyOne (JSValue.number 7)).2 keyTwo = false := by
  decide

/-- C14, amended: for every cache state, comparator, `transformKey` and key,
`has(key)` is `true` exactly when some position of the keys list holds a key
equal, under the comparator, to the transformed key. `has(k1)` is `true` right
after `add(k2, v)` whenever the transformed `k2` equals the transformed `k1`
under the comparator and either `add` stored the key (no stored key was equal
to the transformed `k2`) or the comparator is transitive. -/
theorem has_reference (o : Options) (s : Moized) (key : Key) :
    (has o s key = true ↔
        ∃ i : Fin s.cache.keys.length,
          o.isEqual (s.cache.keys.get i) (transformedKey o key) = true) ∧
      ∀ (k1 k2 : Key) (v : JSValue),
        o.isEqual (transformedKey o k2) (transformedKey o k1) = true →
        (has o s k2 = false ∨
          ∀ a b c, o.isEqual a b = true → o.isEqual b c = true → o.isEqual a c = true) →
        has o (add o s k2 v).2 k1 = true := by
  constructor
  · rw [has_eq_true_iff]
    constructor
    · rintro ⟨k, hk, hkk⟩
      obtain ⟨i, hi⟩ := List.mem_iff_get.1 hk
      exact ⟨i, by rw [hi]; exact hkk⟩
    · rintro ⟨i, hi⟩
      exact ⟨s.cache.keys.get i, List.get_mem _ _ _, hi⟩
  · intro k1 k2 v hequal hcase
    rw [has_eq_true_iff]
    by_cases hp : ∃ k ∈ s.cache.keys, o.isEqual k (transformedKey o k2) = true
    · rw [add_of_present o s k2 v hp]
      rcases hcase with habsent | htrans
      · obtain ⟨k, hk, hkk⟩ := hp
        rw [(has_eq_false_iff o s k2).1 habsent k hk] at hkk
        cases hkk
      · obtain ⟨k, hk, hkk⟩ := hp
        exact ⟨k, hk, htrans _ _ _ hkk hequal⟩
    · have ha : ∀ k ∈ s.cache.keys, o.isEqual k (transformedKey o k2) = false := by
        intro k hk
        by_contra hkk
        exact hp ⟨k, hk, by simpa using hkk⟩
      rw [add_of_absent o s k2 v ha]
      exact ⟨transformedKey o k2, List.mem_cons_self _ _, hequal⟩

theorem has_reference_witness :
    has firstArgOptions
      (add firstArgOptions emptyMoized [JSValue.number 1, JSValue.number 2]
        (JSValue.number 7)).2 [JSValue.number 3, JSValue.number 2] = true :=
  (has_reference firstArgOptions emptyMoized keyA).2
    [JSValue.number 3, JSValue.number 2] [JSValue.number 1, JSValue.number 2] (JSValue.number 7)
    (by decide) (Or.inl (by decide))

/-! ## C15: add prepends -/

/-- C15: for every cache state and every key with no equal key in the keys
list, after `add(key, value)` the keys list is the transformed key followed by
the old keys and the values list is the value followed by the old values: the
new entry is at position 0 and every old entry is one position further, in the
old order. -/
theorem add_prepends (o : Options) (s : Moized) (key : Key) (value : JSValue)
    (habsent : ∀ k ∈ s.cache.keys, o.isEqual k (transformedKey o key) = false) :
    (add o s key value).2.cache.keys = transformedKey o key :: s.cache.keys ∧
      (add o s key value).2.cache.values = value :: s.cache.values ∧
      (add o s key value).2.cache.keys[0]? = some (transformedKey o key) ∧
      (add o s key value).2.cache.values[0]? = some value ∧
      ∀ i : Nat,
        (add o s key value).2.cache.keys[i + 1]? = s.cache.keys[i]? ∧
          (add o s key value).2.cache.values[i + 1]? = s.cache.values[i]? := by
  rw [add_of_absent o s key value habsent]
  refine ⟨rfl, rfl, ?_, ?_, ?_⟩
  · exact List.getElem?_cons_zero
  · exact List.getElem?_cons_zero
  · intro i
    exact ⟨List.getElem?_cons_succ, List.getElem?_cons_succ⟩

theorem add_prepends_witness :
    (add plainOptions holdsA keyB (JSValue.number 2)).2.cache.keys =
        transformedKey plainOptions keyB :: holdsA.cache.keys ∧
      (add plainOptions holdsA keyB (JSValue.number 2)).2.cache.values =
        JSValue.number 2 :: holdsA.cache.values ∧
      (add plainOptions holdsA keyB (JSValue.number 2)).2.cache.keys[0]? =
        some (transformedKey plainOptions keyB) ∧
      (add plainOptions holdsA keyB (JSValue.number 2)).2.cache.values[0]? =
        some (JSValue.number 2) ∧
      ∀ i : Nat,
        (add plainOptions holdsA keyB (JSValue.number 2)).2.cache.keys[i + 1]? =
            holdsA.cache.keys[i]? ∧
          (add plainOptions holdsA keyB (JSValue.number 2)).2.cache.values[i + 1]? =
            holdsA.cache.values[i]? :=
  add_prepends plainOptions holdsA keyB (JSValue.number 2) (by decide)

/-! ## C16: remove deletes one entry -/

/-- C16: for every cache state and key, if some stored key equals the key then
`remove` deletes, from both lists, the entry at the first position whose key
equals it: no earlier position matches, the keys list is one shorter and
every other entry keeps its place in the order. If no stored key equals the
key, both lists are unchanged. -/
theorem remove_deletes_one (o : Options) (s : Moized) (key : Key) :
    (has o s key = true →
        ∃ i : Nat, ∃ hi : i < s.cache.keys.length,
          o.isEqual (s.cache.keys.get ⟨i, hi⟩) (transformedKey o key) = true ∧
            (∀ j : Nat, ∀ hj : j < s.cache.keys.length, j < i →
              o.isEqual (s.cache.keys.get ⟨j, hj⟩) (transformedKey o key) = false) ∧
            (remove o s key).2.cache.keys = s.cache.keys.eraseIdx i ∧
            (remove o s key).2.cache.values = s.cache.values.eraseIdx i ∧
            (remove o s key).2.cache.keys.length + 1 = s.cache.keys.length) ∧
      (has o s key = false →
        (remove o s key).2.cache.keys = s.cache.keys ∧
          (remove o s key).2.cache.values = s.cache.values) := by
  constructor
  · intro h
    have hp := (has_eq_true_iff o s key).1 h
    have hlt : s.cache.keys.findIdx (fun k => o.isEqual k (transformedKey o key)) <
        s.cache.keys.length := List.findIdx_lt_length_of_exists hp
    rw [remove_of_present o s key hp]
    refine ⟨_, hlt, ?_, ?_, rfl, rfl, List.length_eraseIdx_add_one hlt⟩
    · exact List.findIdx_getElem (p := fun k => o.isEqual k (transformedKey o key)) (w := hlt)
    · intro j hj hji
      exact List.not_of_lt_findIdx hji
  · intro h
    rw [remove_of_absent o s key ((has_eq_false_iff o s key).1 h)]
    exact ⟨rfl, rfl⟩

theorem remove_deletes_one_witness :
    (∃ i : Nat, ∃ hi : i < holdsBA.cache.keys.length,
        plainOptions.isEqual (holdsBA.cache.keys.get ⟨i, hi⟩) (transformedKey plainOptions keyA)
            = true ∧
          (∀ j : Nat, ∀ hj : j < holdsBA.cache.keys.length, j < i →
            plainOptions.isEqual (holdsBA.cache.keys.get ⟨j, hj⟩)
              (transformedKey plainOptions keyA) = false) ∧
          (remove plainOptions holdsBA keyA).2.cache.keys = holdsBA.cache.keys.eraseIdx i ∧
          (remove plainOptions holdsBA keyA).2.cache.values = holdsBA.cache.values.eraseIdx i ∧
          (remove plainOptions holdsBA keyA).2.cache.keys.length + 1 =
            holdsBA.cache.keys.length) ∧
      (remove plainOptions holdsBA keyC).2.cache.keys = holdsBA.cache.keys ∧
      (remove plainOptions holdsBA keyC).2.cache.values = holdsBA.cache.values :=
  ⟨(remove_deletes_one plainOptions holdsBA keyA).1 (by decide),
    (remove_deletes_one plainOptions holdsBA keyC).2 (by decide)⟩

/-! ## C17: clear -/

/-- C17: for every cache state, after `clear()` the keys list and the values
list are empty, the size given by the getters `cache` and `cacheSnapshot` is
0, `has` is `false` for every key, and a second `clear()` leaves the cache
contents and the expirations as the first one left them. -/
theorem clear_empties (o : Options) (s : Moized) (key : Key) :
    (clear s).2.cache.keys = [] ∧
      (clear s).2.cache.values = [] ∧
      (cache (clear s).2).size = 0 ∧
      (cacheSnapshot (clear s).2).size = 0 ∧
      has o (clear s).2 key = false ∧
      (clear (clear s).2).2.cache = (clear s).2.cache ∧
      (clear (clear s).2).2.expirations = (clear s).2.expirations := by
  refine ⟨rfl, rfl, rfl, rfl, ?_, rfl, rfl⟩
  rw [has_eq_false_iff]
  intro k hk
  cases hk

end Moize
